import Mathlib

/-!
Verification of the LKFFB (Linear Kalman Filter in a Fourier Basis) core of
the `predictiveest` repository, against its natural-language specification.

The development shallowly embeds the two filter orchestrator variants:

* the minimal-retention variant `_kf_2017` / `kf_2017` from
  `func_mlkalman_2017_Mar_24_fastedits.py` (together with its helpers
  `calc_Gamma`, `calc_pred` and `makePropForward`), and
* the full-retention variant `detailed_kf` / `makePropForward` from
  `kf/detailed.py`.

Real (floating-point) arithmetic is modelled by exact arithmetic over `ℝ`.
The float condition "`1/S` is non-finite" is modelled as `S = 0`, the only
exact-arithmetic situation in which the reciprocal of `S` fails to be a real
number.  NumPy out-of-bounds indexing errors are modelled by an `Option`
result (`none` = the run raises instead of returning).

`kf/common.py` (imported by `kf/detailed.py` for `get_dynamic_model`,
`calc_Gamma`, `calc_pred`, `calc_inst_params`, `propagate_states`,
`calc_Kalman_Gain` and `calc_residuals`) is not part of the given sources;
those helpers are modelled from the specification (sections 4.1-4.5), whose
formulas coincide with the inline code of the minimal-retention variant.
-/

noncomputable section

open scoped BigOperators

/-- Write the single entry `(r, c)` of a square matrix (one assignment
`a[r, c] = v` of the Python source); all other entries are untouched. -/
def setE {n : ℕ} (M : Matrix (Fin n) (Fin n) ℝ) (r c : ℕ) (v : ℝ) :
    Matrix (Fin n) (Fin n) ℝ :=
  fun i j => if i.val = r ∧ j.val = c then v else M i j

/-- One iteration of the dynamic-model loop: the four assignments
`a[c,c]`, `a[c+1,c+1]`, `a[c,c+1]`, `a[c+1,c]` for block `j` (`c = 2*j`),
in source order.  `th = Delta_T_Sampling * f_j * 2 * pi`. -/
def dynBlock {n : ℕ} (Dt cw fj : ℝ) (j : ℕ)
    (M : Matrix (Fin n) (Fin n) ℝ) : Matrix (Fin n) (Fin n) ℝ :=
  let th := Dt * fj * 2 * Real.pi
  setE (setE (setE (setE M (2*j) (2*j) (Real.cos th))
      (2*j+1) (2*j+1) (Real.cos th))
      (2*j) (2*j+1) (cw * Real.sin th))
      (2*j+1) (2*j) (-(cw * Real.sin th))

/-- Modelled from the spec: `get_dynamic_model` of the missing `kf/common.py`
(spec section 4.1), identical to the inline dynamic-model loop of
`_kf_2017` (lines 127-133): starting from the zero matrix, fill one
2x2 block per basis frequency. -/
def get_dynamic_model (numf : ℕ) (Dt : ℝ) (f : Fin numf → ℝ) (cw : ℝ) :
    Matrix (Fin (2*numf)) (Fin (2*numf)) ℝ :=
  (List.finRange numf).foldl (fun M j => dynBlock Dt cw (f j) j.val M) 0

/-- Index of the "real" component of frequency pair `j` (row `2*j`). -/
def pairRe {numf : ℕ} (j : Fin numf) : Fin (2*numf) :=
  ⟨2*j.val, by have := j.isLt; omega⟩

/-- Index of the "imaginary" component of frequency pair `j` (row `2*j+1`). -/
def pairIm {numf : ℕ} (j : Fin numf) : Fin (2*numf) :=
  ⟨2*j.val+1, by have := j.isLt; omega⟩

/-- The measurement row vector `h`: ones at even indices, zero at odd
indices (source: `h[0, ::2] = 1.0`). -/
def hvec (numf : ℕ) : Fin (2*numf) → ℝ :=
  fun i => if i.val % 2 = 0 then 1 else 0

/-- Denominator of the division performed by `calc_Gamma` for entry `i`:
the squared norm `x[2*(i/2)]^2 + x[2*(i/2)+1]^2` of the frequency pair
that entry `i` belongs to. -/
def gammaDenom {numf : ℕ} (x : Fin (2*numf) → ℝ) (i : Fin (2*numf)) : ℝ :=
  x ⟨2*(i.val/2), by have := i.isLt; omega⟩ ^ 2
    + x ⟨2*(i.val/2)+1, by have := i.isLt; omega⟩ ^ 2

/-- `calc_Gamma` of `func_mlkalman_2017_Mar_24_fastedits.py` (lines 33-43):
the adaptive process-noise feature vector
`Gamma2[i] = x[i] * sqrt(oe^2 / (x[2j]^2 + x[2j+1]^2))` where `j = i/2`.
The division is performed unconditionally (no guard on a zero pair). -/
def calc_Gamma {numf : ℕ} (x : Fin (2*numf) → ℝ) (oe : ℝ) :
    Fin (2*numf) → ℝ :=
  fun i => x i * Real.sqrt (oe^2 / gammaDenom x i)

/-- `calc_pred` applied to a single state column: sum of the even ("real")
components (source lines 22-30 and `kf/common.py` per spec section 4.5). -/
def calc_pred1 {numf : ℕ} (x : Fin (2*numf) → ℝ) : ℝ :=
  ∑ j : Fin numf, x (pairRe j)

/-- Instantaneous amplitude of frequency pair `j` extracted from a state:
`sqrt(x[2j]^2 + x[2j+1]^2)` (source line 245; spec section 4.5). -/
def instantA1 {numf : ℕ} (x : Fin (2*numf) → ℝ) (j : Fin numf) : ℝ :=
  Real.sqrt (x (pairRe j) ^ 2 + x (pairIm j) ^ 2)

/-- Instantaneous phase of frequency pair `j` extracted from a state:
`atan2(x[2j+1], x[2j])`, modelled as the complex argument of
`x[2j] + x[2j+1]*I` (source line 247; spec section 4.5). -/
def instantP1 {numf : ℕ} (x : Fin (2*numf) → ℝ) (j : Fin numf) : ℝ :=
  Complex.arg ⟨x (pairRe j), x (pairIm j)⟩

/-- Modelled from the spec: `propagate_states` of the missing
`kf/common.py` (spec section 4.3), identical to `_kf_2017` lines 152-155:
returns `(x_apriori, P_apriori, Q)` where `x_apriori = a·x`,
`Gamma = a·calc_Gamma(x, oe)`, `Q = Gamma·Gammaᵀ`,
`P_apriori = a·P·aᵀ + Q`. -/
def propagate_states {numf : ℕ} (a : Matrix (Fin (2*numf)) (Fin (2*numf)) ℝ)
    (x : Fin (2*numf) → ℝ) (P : Matrix (Fin (2*numf)) (Fin (2*numf)) ℝ)
    (oe : ℝ) :
    (Fin (2*numf) → ℝ) × Matrix (Fin (2*numf)) (Fin (2*numf)) ℝ
      × Matrix (Fin (2*numf)) (Fin (2*numf)) ℝ :=
  let G := a.mulVec (calc_Gamma x oe)
  let Q := Matrix.vecMulVec G G
  (a.mulVec x, a * P * a.transpose + Q, Q)

/-- Modelled from the spec: `calc_Kalman_Gain` of the missing
`kf/common.py` (spec section 4.4), identical to `_kf_2017` lines 165-173:
`S = h·P_apriori·hᵀ + rk` and `W = P_apriori·hᵀ * (1/S)`. -/
def calc_Kalman_Gain {numf : ℕ}
    (Pap : Matrix (Fin (2*numf)) (Fin (2*numf)) ℝ) (rk : ℝ) :
    (Fin (2*numf) → ℝ) × ℝ :=
  let S := Matrix.dotProduct (hvec numf) (Pap.mulVec (hvec numf)) + rk
  (fun i => Pap.mulVec (hvec numf) i * (1/S), S)

/-- Modelled from the spec: `calc_residuals` of the missing `kf/common.py`
(spec section 4.4), identical to `_kf_2017` line 174: `e_z = z_k - h·x`. -/
def calc_residuals {numf : ℕ} (xap : Fin (2*numf) → ℝ) (zk : ℝ) : ℝ :=
  zk - Matrix.dotProduct (hvec numf) xap

/-- The integer code of the `ZeroGain` forecasting mode
(source: `ZERO_GAIN, PROP_FORWARD = range(2)`). -/
def ZERO_GAIN : ℕ := 0

/-- The integer code of the `PropForward` forecasting mode. -/
def PROP_FORWARD : ℕ := 1

/-- The `PredictionMethod` dictionary of the minimal variant: a lookup that
raises `KeyError` (modelled as `none`) on any unrecognized mode string. -/
def PredictionMethod (s : String) : Option ℕ :=
  if s = "ZeroGain" then some ZERO_GAIN
  else if s = "PropForward" then some PROP_FORWARD
  else none

/-- Per-run input bundle of a filter run (spec section 6 input contract). -/
structure KFIn where
  n_train : ℕ
  n_testbefore : ℕ
  n_predict : ℕ
  DeltaT : ℝ
  x0 : ℝ
  p0 : ℝ
  oe : ℝ
  rk : ℝ
  phase_correction : ℝ
  numf : ℕ
  f : Fin numf → ℝ
  z : ℕ → ℝ

/-- `num = n_train + n_predict`, the total horizon of a run. -/
def KFIn.num (p : KFIn) : ℕ := p.n_train + p.n_predict

/-- The dynamic model matrix `a` of a run (`coswave = -1` in both
variants). -/
def KFIn.A (p : KFIn) : Matrix (Fin (2*p.numf)) (Fin (2*p.numf)) ℝ :=
  get_dynamic_model p.numf p.DeltaT p.f (-1)

/-- Working state of the minimal-retention loop: current posterior state and
covariance, plus the halted flag set by the `Inversion Error` break. -/
structure MinState (n : ℕ) where
  x : Fin n → ℝ
  P : Matrix (Fin n) (Fin n) ℝ
  halted : Bool

/-- Initial conditions of `_kf_2017` (lines 135-140): uniform state `x0`,
diagonal covariance `p0`. -/
def minInit (p : KFIn) : MinState (2*p.numf) :=
  ⟨fun _ => p.x0, Matrix.diagonal (fun _ => p.p0), false⟩

/-- One iteration of the `_kf_2017` while-loop at step `k` (lines 150-193):
predict; in `ZeroGain` mode past `n_train`, keep the apriori values
(open loop); otherwise correct, halting if `1/S` is non-finite (`S = 0`). -/
def minStep (p : KFIn) (pm : ℕ) (k : ℕ) (s : MinState (2*p.numf)) :
    MinState (2*p.numf) :=
  if s.halted then s else
  let pr := propagate_states p.A s.x s.P p.oe
  let xap := pr.1
  let Pap := pr.2.1
  if pm = ZERO_GAIN ∧ p.n_train < k then ⟨xap, Pap, false⟩
  else
    let WS := calc_Kalman_Gain Pap p.rk
    let S := WS.2
    if S = 0 then ⟨s.x, s.P, true⟩
    else
      let W := WS.1
      let e := p.z k - Matrix.dotProduct (hvec p.numf) xap
      ⟨fun i => xap i + W i * e,
       Pap - S • Matrix.vecMulVec W W, false⟩

/-- The minimal-variant trajectory: `minRun p pm k` is the loop state after
the iteration for step `k` (`k = 0` is the initial state). -/
def minRun (p : KFIn) (pm : ℕ) : ℕ → MinState (2*p.numf)
  | 0 => minInit p
  | Nat.succ k => minStep p pm (k+1) (minRun p pm k)

/-- The stored trajectory `store_x_hat[:, :, k]`: slot `0` is never written
(the loop starts at `k = 1`), and nothing is written at or after the step
where the loop breaks on a non-finite `1/S`. -/
def storedX (p : KFIn) (pm : ℕ) (k : ℕ) : Fin (2*p.numf) → ℝ :=
  if k = 0 ∨ (minRun p pm k).halted = true then 0 else (minRun p pm k).x

/-- The harmonic sum of `makePropForward` in the minimal variant
(lines 251-260), synthesized from the frozen state `x`: the fixed phase
correction is added exactly when the basis frequency is nonzero. -/
def makePropForward_val (p : KFIn) (x : Fin (2*p.numf) → ℝ) (tn : ℕ) : ℝ :=
  ∑ j : Fin p.numf,
    if p.f j = 0 then
      instantA1 x j *
        Real.cos (p.DeltaT * tn * p.f j * 2 * Real.pi + instantP1 x j)
    else
      instantA1 x j *
        Real.cos (p.DeltaT * tn * p.f j * 2 * Real.pi + instantP1 x j
          + p.phase_correction)

/-- The condition under which `_kf_2017` takes the `PropForward` early
return at `k = n_train` (line 182): the mode is `PropForward`, the loop
actually reaches step `n_train` (`1 ≤ n_train < num`), and no
`Inversion Error` break happened at a step `≤ n_train`. -/
def PFcond (p : KFIn) (pm : ℕ) : Prop :=
  pm = PROP_FORWARD ∧ 1 ≤ p.n_train ∧ p.n_train < p.num ∧
    (minRun p pm p.n_train).halted = false

instance (p : KFIn) (pm : ℕ) : Decidable (PFcond p pm) := by
  unfold PFcond; infer_instance

/-- The minimal-retention orchestrator `_kf_2017` (lines 104-196).
On the `PropForward` early return, the output is the last `n_testbefore`
stored states reconstructed, then the `n_predict` harmonic-sum forecasts;
otherwise it is the reconstruction of the stored trajectory from step
`n_train - n_testbefore` to the end of the horizon. -/
def _kf_2017 (p : KFIn) (pm : ℕ) : List ℝ :=
  if PFcond p pm then
    (List.ofFn fun i : Fin p.n_testbefore =>
      calc_pred1 (storedX p pm (p.n_train - p.n_testbefore + i.val)))
    ++ (List.ofFn fun i : Fin p.n_predict =>
      makePropForward_val p ((minRun p pm p.n_train).x) (p.n_train + i.val))
  else
    List.ofFn fun i : Fin (p.n_testbefore + p.n_predict) =>
      calc_pred1 (storedX p pm (p.n_train - p.n_testbefore + i.val))

/-- The public wrapper `kf_2017` (lines 51-101): looks the mode string up in
the `PredictionMethod` dictionary before any filtering; an unrecognized
string raises `KeyError` (modelled `none`) and the filter loop never runs. -/
def kf_2017 (p : KFIn) (s : String) : Option (List ℝ) :=
  (PredictionMethod s).map (fun pm => _kf_2017 p pm)

/-- Working state of the full-retention loop at one step: posterior state
and covariance together with that step's apriori values, gain and innovation
covariance (all retained by `detailed_kf`). -/
structure DetState (n : ℕ) where
  x : Fin n → ℝ
  P : Matrix (Fin n) (Fin n) ℝ
  xap : Fin n → ℝ
  Pap : Matrix (Fin n) (Fin n) ℝ
  W : Fin n → ℝ
  S : ℝ

/-- Initial conditions of `detailed_kf` (lines 162-164): uniform state,
diagonal covariance; the per-step diagnostic arrays start at zero. -/
def detInit (p : KFIn) : DetState (2*p.numf) :=
  ⟨fun _ => p.x0, Matrix.diagonal (fun _ => p.p0),
   fun _ => 0, 0, fun _ => 0, 0⟩

/-- One iteration of the `detailed_kf` while-loop at step `k`
(lines 179-198): propagate, compute the gain, zero it when the step is
skipped (`k % skip_msmts ≠ 0`), then the aposteriori updates. -/
def detStep (p : KFIn) (skip : ℕ) (k : ℕ) (s : DetState (2*p.numf)) :
    DetState (2*p.numf) :=
  let pr := propagate_states p.A s.x s.P p.oe
  let xap := pr.1
  let Pap := pr.2.1
  let WS := calc_Kalman_Gain Pap p.rk
  let W := if k % skip ≠ 0 then (fun _ => (0:ℝ)) else WS.1
  let S := WS.2
  let e := calc_residuals xap (p.z k)
  ⟨fun i => xap i + W i * e, Pap - S • Matrix.vecMulVec W W, xap, Pap, W, S⟩

/-- The full-retention trajectory: `detRun p skip k` is the loop state after
the iteration for step `k` (`k = 0` is the initial state, which is stored in
column `0` of `x_hat`). -/
def detRun (p : KFIn) (skip : ℕ) : ℕ → DetState (2*p.numf)
  | 0 => detInit p
  | Nat.succ k => detStep p skip (k+1) (detRun p skip k)

/-- The instantaneous-amplitude column `instantA[:, n_train]` used by the
detailed `makePropForward`: computed from the posterior at `n_train`; the
`instantA` loop starts at `k = 1`, so at `n_train = 0` the column is the
untouched zero initialization. -/
def detInstantA (p : KFIn) (skip : ℕ) (j : Fin p.numf) : ℝ :=
  if p.n_train = 0 then 0 else instantA1 ((detRun p skip p.n_train).x) j

/-- The instantaneous-phase column `instantP[:, n_train]` used by the
detailed `makePropForward` (zero when `n_train = 0`, see `detInstantA`). -/
def detInstantP (p : KFIn) (skip : ℕ) (j : Fin p.numf) : ℝ :=
  if p.n_train = 0 then 0 else instantP1 ((detRun p skip p.n_train).x) j

/-- The harmonic sum of `makePropForward` in `kf/detailed.py`
(lines 66-69): the first basis index is summed without the phase
correction, and every index `>= 1` receives the correction, regardless of
the frequency values. -/
def detPF (p : KFIn) (skip : ℕ) (tn : ℕ) : ℝ :=
  (if h : 0 < p.numf then
    detInstantA p skip ⟨0, h⟩ *
      Real.cos (p.DeltaT * tn * p.f ⟨0, h⟩ * 2 * Real.pi
        + detInstantP p skip ⟨0, h⟩)
  else 0)
  + ∑ j : Fin p.numf,
      if 1 ≤ j.val then
        detInstantA p skip j *
          Real.cos (p.DeltaT * tn * p.f j * 2 * Real.pi
            + detInstantP p skip j + p.phase_correction)
      else 0

/-- The full-retention orchestrator `detailed_kf` (lines 74-233), prediction
output only (the persisted archive is out of scope of the claims).  The
guard models NumPy bounds checking: the loop writes `x_hat[:, :, n_train]`
into arrays of third dimension `num`, and `makePropForward` reads
`instantA[:, n_train]` and `freq_basis_array[0]`; when `n_train >= num`
(that is `n_predict = 0`) or `numf = 0` the run raises `IndexError`
(modelled `none`) instead of returning. -/
def detailed_kf (p : KFIn) (skip : ℕ) : Option (List ℝ) :=
  if p.n_train < p.num ∧ 1 ≤ p.numf then
    some ((List.ofFn fun i : Fin p.n_testbefore =>
        calc_pred1 ((detRun p skip (p.n_train - p.n_testbefore + i.val)).x))
      ++ (List.ofFn fun i : Fin p.n_predict =>
        detPF p skip (p.n_train + i.val)))
  else none

/-- Variant of `detStep` with the measurement-skip branch removed (the
"unskipped filter" of the spec's testable property section 8). -/
def detStepNoSkip (p : KFIn) (k : ℕ) (s : DetState (2*p.numf)) :
    DetState (2*p.numf) :=
  let pr := propagate_states p.A s.x s.P p.oe
  let xap := pr.1
  let Pap := pr.2.1
  let WS := calc_Kalman_Gain Pap p.rk
  let W := WS.1
  let S := WS.2
  let e := calc_residuals xap (p.z k)
  ⟨fun i => xap i + W i * e, Pap - S • Matrix.vecMulVec W W, xap, Pap, W, S⟩

/-- Trajectory of the unskipped filter. -/
def detRunNoSkip (p : KFIn) : ℕ → DetState (2*p.numf)
  | 0 => detInit p
  | Nat.succ k => detStepNoSkip p (k+1) (detRunNoSkip p k)

/-- Value of a filled 2x2 block of the dynamic model at (absolute) indices
`i`, `j` belonging to that block: `cos th` on the diagonal, `cw * sin th`
in the even row, `-(cw * sin th)` in the odd row. -/
def blockEntry (Dt cw fj : ℝ) (i j : ℕ) : ℝ :=
  let th := Dt * fj * 2 * Real.pi
  if i = j then Real.cos th
  else if i % 2 = 0 then cw * Real.sin th
  else -(cw * Real.sin th)

/-- Spec-side block entry for claim C2 (spec section 4.1, read literally):
block `[[cos th, -cw*sin th], [cw*sin th, cos th]]` with `th = 2*pi*f*Dt`. -/
def specBlockEntry (Dt cw fj : ℝ) (i j : ℕ) : ℝ :=
  let th := 2 * Real.pi * fj * Dt
  if i = j then Real.cos th
  else if i % 2 = 0 then -(cw * Real.sin th)
  else cw * Real.sin th

/-- Spec-side dynamic model for claim C2: block diagonal with the blocks of
`specBlockEntry`, zero elsewhere. -/
def spec_dynamic_model (numf : ℕ) (Dt : ℝ) (f : Fin numf → ℝ) (cw : ℝ) :
    Matrix (Fin (2*numf)) (Fin (2*numf)) ℝ :=
  fun i j =>
    if i.val/2 = j.val/2 then
      specBlockEntry Dt cw (f ⟨i.val/2, by have := i.isLt; omega⟩) i.val j.val
    else 0

lemma dynBlock_out {n : ℕ} {Dt cw fj : ℝ} {b : ℕ}
    {M : Matrix (Fin n) (Fin n) ℝ} {i j : Fin n}
    (h : i.val/2 ≠ b ∨ j.val/2 ≠ b) :
    dynBlock Dt cw fj b M i j = M i j := by
  simp only [dynBlock, setE]
  split_ifs <;> first | rfl | (exfalso; omega)

lemma dynBlock_in {n : ℕ} {Dt cw fj : ℝ} {b : ℕ}
    {M : Matrix (Fin n) (Fin n) ℝ} {i j : Fin n}
    (hi : i.val/2 = b) (hj : j.val/2 = b) :
    dynBlock Dt cw fj b M i j = blockEntry Dt cw fj i.val j.val := by
  simp only [dynBlock, setE, blockEntry]
  split_ifs <;> first | rfl | (exfalso; omega)

lemma foldl_dynBlock_out {numf : ℕ} (Dt cw : ℝ) (f : Fin numf → ℝ)
    (L : List (Fin numf)) (M : Matrix (Fin (2*numf)) (Fin (2*numf)) ℝ)
    (i j : Fin (2*numf))
    (h : ∀ b ∈ L, i.val/2 ≠ b.val ∨ j.val/2 ≠ b.val) :
    (L.foldl (fun M b => dynBlock Dt cw (f b) b.val M) M) i j = M i j := by
  induction L generalizing M with
  | nil => rfl
  | cons a L ih =>
    rw [List.foldl_cons, ih _ (fun b hb => h b (List.mem_cons_of_mem a hb))]
    exact dynBlock_out (h a (List.mem_cons_self a L))

lemma foldl_dynBlock_in {numf : ℕ} (Dt cw : ℝ) (f : Fin numf → ℝ)
    (L : List (Fin numf)) (hnd : L.Nodup) (b : Fin numf) (hb : b ∈ L)
    (i j : Fin (2*numf)) (hi : i.val/2 = b.val) (hj : j.val/2 = b.val)
    (M : Matrix (Fin (2*numf)) (Fin (2*numf)) ℝ) :
    (L.foldl (fun M b => dynBlock Dt cw (f b) b.val M) M) i j
      = blockEntry Dt cw (f b) i.val j.val := by
  induction L generalizing M with
  | nil => cases hb
  | cons a L ih =>
    rw [List.foldl_cons]
    rcases List.mem_cons.mp hb with rfl | hb2
    · have ha : b ∉ L := (List.nodup_cons.mp hnd).1
      rw [foldl_dynBlock_out Dt cw f L _ i j ?_]
      · exact dynBlock_in hi hj
      · intro b' hb'
        refine Or.inl ?_
        rw [hi]
        intro hEq
        exact ha (Fin.val_injective hEq ▸ hb')
    · exact ih (List.nodup_cons.mp hnd).2 hb2 _

/-- Closed form of the dynamic-model builder: block diagonal, with
`blockEntry` inside the per-frequency blocks and `0` elsewhere. -/
theorem get_dynamic_model_apply (numf : ℕ) (Dt cw : ℝ) (f : Fin numf → ℝ)
    (i j : Fin (2*numf)) :
    get_dynamic_model numf Dt f cw i j =
      if i.val/2 = j.val/2 then
        blockEntry Dt cw (f ⟨i.val/2, by have := i.isLt; omega⟩) i.val j.val
      else 0 := by
  unfold get_dynamic_model
  by_cases h : i.val/2 = j.val/2
  · rw [if_pos h]
    exact foldl_dynBlock_in Dt cw f _ (List.nodup_finRange numf)
      ⟨i.val/2, by have := i.isLt; omega⟩ (List.mem_finRange _) i j rfl
      h.symm 0
  · rw [if_neg h]
    rw [foldl_dynBlock_out Dt cw f _ 0 i j ?_]
    · rfl
    · intro b _
      by_cases hc : i.val/2 = b.val
      · exact Or.inr (fun hj2 => h (hc.trans hj2.symm))
      · exact Or.inl hc

lemma blockEntry_diag (Dt cw fj : ℝ) (a : ℕ) :
    blockEntry Dt cw fj a a = Real.cos (Dt * fj * 2 * Real.pi) := by
  simp [blockEntry]

lemma blockEntry_even (Dt cw fj : ℝ) {a b : ℕ} (h : a ≠ b) (ha : a % 2 = 0) :
    blockEntry Dt cw fj a b = cw * Real.sin (Dt * fj * 2 * Real.pi) := by
  simp [blockEntry, h, ha]

lemma blockEntry_odd (Dt cw fj : ℝ) {a b : ℕ} (h : a ≠ b) (ha : a % 2 ≠ 0) :
    blockEntry Dt cw fj a b = -(cw * Real.sin (Dt * fj * 2 * Real.pi)) := by
  simp [blockEntry, h, ha]

/-- C2 (counterexample): with one basis frequency `f = 1` and sampling
interval `1/4` (so `th = pi/2`), the source builds a block whose entry
`(0, 1)` is `coswave * sin th = -1`, while the claim's block
`[[cos th, -cos_wave*sin th], [cos_wave*sin th, cos th]]` has `+1` there:
the claimed off-diagonal signs are transposed relative to the code. -/
theorem C2_sign_counterexample :
    get_dynamic_model 1 (1/4) ![1] (-1) ⟨0, by omega⟩ ⟨1, by omega⟩ = -1 ∧
    spec_dynamic_model 1 (1/4) ![1] (-1) ⟨0, by omega⟩ ⟨1, by omega⟩ = 1 := by
  constructor
  · rw [get_dynamic_model_apply]
    norm_num [blockEntry, Matrix.cons_val_fin_one]
    rw [show (1:ℝ)/2 * Real.pi = Real.pi/2 by ring, Real.sin_pi_div_two]
  · simp only [spec_dynamic_model, specBlockEntry]
    norm_num [Matrix.cons_val_fin_one]
    rw [show 2 * Real.pi * ((1:ℝ)/4) = Real.pi/2 by ring, Real.sin_pi_div_two]

/-- C2 (amended): the dynamic-model builder returns a block-diagonal matrix
whose 2x2 block for frequency `f j` is
`[[cos th, cw*sin th], [-(cw*sin th), cos th]]` with `th = 2*pi*f*Dt`
(with `cw = -1` this is `[[cos th, -sin th], [sin th, cos th]]` — the
transpose of the block written in the claim), and every entry outside the
per-frequency blocks is exactly zero. -/
theorem C2_amended_block_structure (numf : ℕ) (Dt cw : ℝ)
    (f : Fin numf → ℝ) (j : Fin numf) (i i' : Fin (2*numf))
    (hoff : i.val/2 ≠ i'.val/2) :
    get_dynamic_model numf Dt f cw (pairRe j) (pairRe j)
        = Real.cos (Dt * f j * 2 * Real.pi) ∧
    get_dynamic_model numf Dt f cw (pairIm j) (pairIm j)
        = Real.cos (Dt * f j * 2 * Real.pi) ∧
    get_dynamic_model numf Dt f cw (pairRe j) (pairIm j)
        = cw * Real.sin (Dt * f j * 2 * Real.pi) ∧
    get_dynamic_model numf Dt f cw (pairIm j) (pairRe j)
        = -(cw * Real.sin (Dt * f j * 2 * Real.pi)) ∧
    get_dynamic_model numf Dt f cw i i' = 0 := by
  have key : ∀ (m : ℕ) (h : m/2 < numf), m/2 = j.val →
      (⟨m/2, h⟩ : Fin numf) = j := fun m h hm => Fin.ext hm
  have hre : (pairRe j).val = 2*j.val := rfl
  have him : (pairIm j).val = 2*j.val+1 := rfl
  refine ⟨?_, ?_, ?_, ?_, ?_⟩
  · rw [get_dynamic_model_apply, if_pos rfl, key]
    · exact blockEntry_diag Dt cw (f j) _
    · rw [hre]; omega
  · rw [get_dynamic_model_apply, if_pos rfl, key]
    · exact blockEntry_diag Dt cw (f j) _
    · rw [him]; omega
  · have hc : (pairRe j).val/2 = (pairIm j).val/2 := by rw [hre, him]; omega
    rw [get_dynamic_model_apply, if_pos hc, key]
    · exact blockEntry_even Dt cw (f j) (by rw [hre, him]; omega)
        (by rw [hre]; omega)
    · rw [hre]; omega
  · have hc : (pairIm j).val/2 = (pairRe j).val/2 := by rw [hre, him]; omega
    rw [get_dynamic_model_apply, if_pos hc, key]
    · exact blockEntry_odd Dt cw (f j) (by rw [hre, him]; omega)
        (by rw [him]; omega)
    · rw [him]; omega
  · rw [get_dynamic_model_apply, if_neg hoff]

/-- Witness for C2 (amended) at `numf = 2`: the entry `(0, 2)` joining the
two distinct frequency blocks is zero. -/
theorem C2_amended_witness :
    ((⟨0, by omega⟩ : Fin (2*2)).val/2 ≠ (⟨2, by omega⟩ : Fin (2*2)).val/2) ∧
    get_dynamic_model 2 1 ![0,0] (-1) ⟨0, by omega⟩ ⟨2, by omega⟩ = 0 :=
  ⟨by decide, (C2_amended_block_structure 2 1 (-1) ![0,0] 0
    ⟨0, by omega⟩ ⟨2, by omega⟩ (by decide)).2.2.2.2⟩

lemma vecMulVec_self_isSymm {n : ℕ} (v : Fin n → ℝ) :
    (Matrix.vecMulVec v v).IsSymm := by
  show (Matrix.vecMulVec v v).transpose = Matrix.vecMulVec v v
  ext i j
  simp [Matrix.transpose_apply, Matrix.vecMulVec_apply, mul_comm]

lemma isSymm_predict {n : ℕ} {a P : Matrix (Fin n) (Fin n) ℝ}
    {G : Fin n → ℝ} (hP : P.IsSymm) :
    (a * P * a.transpose + Matrix.vecMulVec G G).IsSymm := by
  refine Matrix.IsSymm.add ?_ (vecMulVec_self_isSymm G)
  show (a * P * a.transpose).transpose = a * P * a.transpose
  rw [Matrix.transpose_mul, Matrix.transpose_mul, Matrix.transpose_transpose]
  rw [show P.transpose = P from hP, ← Matrix.mul_assoc]

lemma isSymm_correct {n : ℕ} {Pap : Matrix (Fin n) (Fin n) ℝ}
    {W : Fin n → ℝ} {S : ℝ} (h : Pap.IsSymm) :
    (Pap - S • Matrix.vecMulVec W W).IsSymm := by
  show (Pap - S • Matrix.vecMulVec W W).transpose = _
  rw [Matrix.transpose_sub, Matrix.transpose_smul,
    show Pap.transpose = Pap from h,
    show (Matrix.vecMulVec W W).transpose = _ from vecMulVec_self_isSymm W]

lemma minStep_P_isSymm (p : KFIn) (pm k : ℕ) (s : MinState (2*p.numf))
    (hs : s.P.IsSymm) : (minStep p pm k s).P.IsSymm := by
  unfold minStep
  split
  · exact hs
  · split
    · exact isSymm_predict hs
    · dsimp only
      split
      · exact hs
      · exact isSymm_correct (isSymm_predict hs)

lemma detStep_P_isSymm (p : KFIn) (skip k : ℕ) (s : DetState (2*p.numf))
    (hs : s.P.IsSymm) : (detStep p skip k s).P.IsSymm :=
  isSymm_correct (isSymm_predict hs)

lemma minRun_P_isSymm (p : KFIn) (pm : ℕ) : ∀ k,
    ((minRun p pm k).P).IsSymm
  | 0 => Matrix.isSymm_diagonal _
  | Nat.succ k => minStep_P_isSymm p pm (k+1) _ (minRun_P_isSymm p pm k)

lemma detRun_P_isSymm (p : KFIn) (skip : ℕ) : ∀ k,
    ((detRun p skip k).P).IsSymm
  | 0 => Matrix.isSymm_diagonal _
  | Nat.succ k => detStep_P_isSymm p skip (k+1) _ (detRun_P_isSymm p skip k)

/-- C9: in exact real arithmetic, the covariance is the diagonal matrix
`p0·I` at initialization, stays symmetric after every Predict step (the
apriori covariance `a·P·aᵀ + Γ·Γᵀ` computed by `propagate_states` from any
reached state), and stays symmetric after every Correct step (the posterior
covariance), at every step of every run of both orchestrator variants. -/
theorem C9_covariance_symmetric (p : KFIn) (pm skip k : ℕ) :
    (minRun p pm 0).P = Matrix.diagonal (fun _ => p.p0) ∧
    ((minRun p pm k).P).IsSymm ∧
    ((propagate_states p.A (minRun p pm k).x (minRun p pm k).P p.oe).2.1).IsSymm ∧
    ((detRun p skip k).P).IsSymm ∧
    ((propagate_states p.A (detRun p skip k).x (detRun p skip k).P p.oe).2.1).IsSymm :=
  ⟨rfl, minRun_P_isSymm p pm k, isSymm_predict (minRun_P_isSymm p pm k),
   detRun_P_isSymm p skip k, isSymm_predict (detRun_P_isSymm p skip k)⟩

lemma gammaDenom_pairRe {numf : ℕ} (x : Fin (2*numf) → ℝ) (j : Fin numf) :
    gammaDenom x (pairRe j) = x (pairRe j)^2 + x (pairIm j)^2 := by
  have e1 : ∀ (pf : 2*((pairRe j).val/2) < 2*numf),
      x ⟨2*((pairRe j).val/2), pf⟩ = x (pairRe j) := fun pf =>
    congrArg x (Fin.ext (by show 2*((2*j.val)/2) = 2*j.val; omega))
  have e2 : ∀ (pf : 2*((pairRe j).val/2)+1 < 2*numf),
      x ⟨2*((pairRe j).val/2)+1, pf⟩ = x (pairIm j) := fun pf =>
    congrArg x (Fin.ext (by show 2*((2*j.val)/2)+1 = 2*j.val+1; omega))
  unfold gammaDenom
  rw [e1, e2]

lemma gammaDenom_pairIm {numf : ℕ} (x : Fin (2*numf) → ℝ) (j : Fin numf) :
    gammaDenom x (pairIm j) = x (pairRe j)^2 + x (pairIm j)^2 := by
  have e1 : ∀ (pf : 2*((pairIm j).val/2) < 2*numf),
      x ⟨2*((pairIm j).val/2), pf⟩ = x (pairRe j) := fun pf =>
    congrArg x (Fin.ext (by show 2*((2*j.val+1)/2) = 2*j.val; omega))
  have e2 : ∀ (pf : 2*((pairIm j).val/2)+1 < 2*numf),
      x ⟨2*((pairIm j).val/2)+1, pf⟩ = x (pairIm j) := fun pf =>
    congrArg x (Fin.ext (by show 2*((2*j.val+1)/2)+1 = 2*j.val+1; omega))
  unfold gammaDenom
  rw [e1, e2]

/-- C6: whenever the frequency pair of the state is not `(0, 0)`, the
adaptive noise feature pair equals
`(x_re*sqrt(oe^2/(x_re^2+x_im^2)), x_im*sqrt(oe^2/(x_re^2+x_im^2)))`, and
its Euclidean norm is `|oe|` independently of the state magnitude. -/
theorem C6_noise_feature_norm (numf : ℕ) (x : Fin (2*numf) → ℝ) (oe : ℝ)
    (j : Fin numf) (h : ¬(x (pairRe j) = 0 ∧ x (pairIm j) = 0)) :
    calc_Gamma x oe (pairRe j)
      = x (pairRe j) * Real.sqrt (oe^2 / (x (pairRe j)^2 + x (pairIm j)^2)) ∧
    calc_Gamma x oe (pairIm j)
      = x (pairIm j) * Real.sqrt (oe^2 / (x (pairRe j)^2 + x (pairIm j)^2)) ∧
    Real.sqrt (calc_Gamma x oe (pairRe j)^2 + calc_Gamma x oe (pairIm j)^2)
      = |oe| := by
  have hs : 0 < x (pairRe j)^2 + x (pairIm j)^2 := by
    rcases not_and_or.mp h with h1 | h1 <;> positivity
  have c1 : calc_Gamma x oe (pairRe j)
      = x (pairRe j) * Real.sqrt (oe^2 / (x (pairRe j)^2 + x (pairIm j)^2)) := by
    unfold calc_Gamma; rw [gammaDenom_pairRe]
  have c2 : calc_Gamma x oe (pairIm j)
      = x (pairIm j) * Real.sqrt (oe^2 / (x (pairRe j)^2 + x (pairIm j)^2)) := by
    unfold calc_Gamma; rw [gammaDenom_pairIm]
  refine ⟨c1, c2, ?_⟩
  rw [c1, c2]
  have key : (x (pairRe j) * Real.sqrt (oe^2 / (x (pairRe j)^2 + x (pairIm j)^2)))^2
      + (x (pairIm j) * Real.sqrt (oe^2 / (x (pairRe j)^2 + x (pairIm j)^2)))^2
      = oe^2 := by
    rw [mul_pow, mul_pow, Real.sq_sqrt (by positivity)]
    field_simp
    ring
  rw [key, Real.sqrt_sq_eq_abs]

/-- Witness for C6 at state pair `(3, 4)` and `oe = 2`. -/
theorem C6_witness :
    (¬((![3,4] : Fin (2*1) → ℝ) (pairRe (0 : Fin 1)) = 0
        ∧ (![3,4] : Fin (2*1) → ℝ) (pairIm (0 : Fin 1)) = 0)) ∧
    Real.sqrt (calc_Gamma (![3,4] : Fin (2*1) → ℝ) 2 (pairRe (0 : Fin 1))^2
        + calc_Gamma (![3,4] : Fin (2*1) → ℝ) 2 (pairIm (0 : Fin 1))^2)
      = |(2:ℝ)| := by
  have h : ¬((![3,4] : Fin (2*1) → ℝ) (pairRe (0 : Fin 1)) = 0
      ∧ (![3,4] : Fin (2*1) → ℝ) (pairIm (0 : Fin 1)) = 0) := by
    intro hc
    have := hc.1
    rw [show pairRe (0 : Fin 1) = ⟨0, by omega⟩ from rfl] at this
    norm_num at this
  exact ⟨h, (C6_noise_feature_norm 1 ![3,4] 2 0 h).2.2⟩

/-- C7: the adaptive noise feature divides by `oe^2 / gammaDenom`
unconditionally — there is no branch or epsilon floor in `calc_Gamma` —
and on any state whose frequency pair is exactly `(0, 0)` the denominator
of that division is exactly zero. -/
theorem C7_division_by_zero_unguarded (numf : ℕ) (x : Fin (2*numf) → ℝ)
    (oe : ℝ) (j : Fin numf) (h0 : x (pairRe j) = 0) (h1 : x (pairIm j) = 0) :
    gammaDenom x (pairRe j) = 0 ∧ gammaDenom x (pairIm j) = 0 ∧
    (∀ (y : Fin (2*numf) → ℝ) (i : Fin (2*numf)),
      calc_Gamma y oe i = y i * Real.sqrt (oe^2 / gammaDenom y i)) := by
  refine ⟨?_, ?_, fun y i => rfl⟩
  · rw [gammaDenom_pairRe, h0, h1]; ring
  · rw [gammaDenom_pairIm, h0, h1]; ring

/-- Witness for C7 at the all-zero state. -/
theorem C7_witness :
    ((fun _ => (0:ℝ)) ((pairRe (0 : Fin 1))) = 0
      ∧ (fun _ => (0:ℝ)) ((pairIm (0 : Fin 1))) = 0) ∧
    gammaDenom (fun _ => (0:ℝ)) (pairRe (0 : Fin 1)) = 0 :=
  ⟨⟨rfl, rfl⟩,
   (C7_division_by_zero_unguarded 1 (fun _ => 0) 1 0 rfl rfl).1⟩

/-- Amplitude column at `n_train` of the unskipped filter. -/
def detInstantANoSkip (p : KFIn) (j : Fin p.numf) : ℝ :=
  if p.n_train = 0 then 0 else instantA1 ((detRunNoSkip p p.n_train).x) j

/-- Phase column at `n_train` of the unskipped filter. -/
def detInstantPNoSkip (p : KFIn) (j : Fin p.numf) : ℝ :=
  if p.n_train = 0 then 0 else instantP1 ((detRunNoSkip p p.n_train).x) j

/-- Harmonic sum of the unskipped filter's `makePropForward`. -/
def detPFNoSkip (p : KFIn) (tn : ℕ) : ℝ :=
  (if h : 0 < p.numf then
    detInstantANoSkip p ⟨0, h⟩ *
      Real.cos (p.DeltaT * tn * p.f ⟨0, h⟩ * 2 * Real.pi
        + detInstantPNoSkip p ⟨0, h⟩)
  else 0)
  + ∑ j : Fin p.numf,
      if 1 ≤ j.val then
        detInstantANoSkip p j *
          Real.cos (p.DeltaT * tn * p.f j * 2 * Real.pi
            + detInstantPNoSkip p j + p.phase_correction)
      else 0

/-- Prediction output of the unskipped filter. -/
def detailed_kf_noskip (p : KFIn) : Option (List ℝ) :=
  if p.n_train < p.num ∧ 1 ≤ p.numf then
    some ((List.ofFn fun i : Fin p.n_testbefore =>
        calc_pred1 ((detRunNoSkip p (p.n_train - p.n_testbefore + i.val)).x))
      ++ (List.ofFn fun i : Fin p.n_predict =>
        detPFNoSkip p (p.n_train + i.val)))
  else none

lemma detStep_skip (p : KFIn) (m k : ℕ) (s : DetState (2*p.numf))
    (h : k % m ≠ 0) :
    (detStep p m k s).W = (fun _ => 0) ∧
    (detStep p m k s).x = (detStep p m k s).xap ∧
    (detStep p m k s).P = (detStep p m k s).Pap := by
  unfold detStep
  dsimp only
  rw [if_pos h]
  refine ⟨rfl, ?_, ?_⟩
  · funext i; simp
  · have hz : Matrix.vecMulVec (fun _ : Fin (2*p.numf) => (0:ℝ))
        (fun _ : Fin (2*p.numf) => (0:ℝ)) = 0 := by
      ext i j; simp [Matrix.vecMulVec_apply]
    rw [hz, smul_zero, sub_zero]

lemma detStep_one (p : KFIn) (k : ℕ) (s : DetState (2*p.numf)) :
    detStep p 1 k s = detStepNoSkip p k s := by
  unfold detStep detStepNoSkip
  simp [Nat.mod_one]

lemma detRun_one (p : KFIn) : ∀ k, detRun p 1 k = detRunNoSkip p k
  | 0 => rfl
  | Nat.succ k => by
      show detStep p 1 (k+1) (detRun p 1 k) = detStepNoSkip p (k+1) _
      rw [detRun_one p k, detStep_one]

/-- C4: at every training step `k >= 1` with `k % m ≠ 0` the Kalman gain is
forced to zero, so the posterior state and covariance equal the apriori
values of that step; and with `m = 1` the trajectory and output of the
filter are identical to the unskipped filter's. -/
theorem C4_measurement_skip (p : KFIn) (m k : ℕ) (hk : 1 ≤ k)
    (hskip : k % m ≠ 0) :
    ((detRun p m k).W = fun _ => 0) ∧
    (detRun p m k).x = (detRun p m k).xap ∧
    (detRun p m k).P = (detRun p m k).Pap ∧
    (∀ q : KFIn, ∀ k', detRun q 1 k' = detRunNoSkip q k') ∧
    (∀ q : KFIn, detailed_kf q 1 = detailed_kf_noskip q) := by
  have hout : ∀ q : KFIn, detailed_kf q 1 = detailed_kf_noskip q := by
    intro q
    have hrun : detRun q 1 = detRunNoSkip q := funext (detRun_one q)
    unfold detailed_kf detailed_kf_noskip detPF detPFNoSkip
      detInstantA detInstantP detInstantANoSkip detInstantPNoSkip
    rw [hrun]
  obtain ⟨k0, rfl⟩ : ∃ k0, k = k0 + 1 :=
    ⟨k - 1, by omega⟩
  have hs := detStep_skip p m (k0+1) (detRun p m k0) hskip
  exact ⟨hs.1, hs.2.1, hs.2.2, fun q => detRun_one q, hout⟩

/-- Trivial parameter bundle used by witnesses that only need concrete
hypothesis discharge. -/
def pTriv : KFIn :=
  ⟨1, 0, 1, 1, 0, 0, 0, 1, 0, 1, ![0], fun _ => 0⟩

/-- Witness for C4 at `m = 2`, `k = 1`. -/
theorem C4_witness :
    (1 ≤ 1 ∧ 1 % 2 ≠ 0) ∧ ((detRun pTriv 2 1).W = fun _ => 0) :=
  ⟨by decide, (C4_measurement_skip pTriv 2 1 (by decide) (by decide)).1⟩

lemma _kf_2017_length (p : KFIn) (pm : ℕ) :
    (_kf_2017 p pm).length = p.n_testbefore + p.n_predict := by
  unfold _kf_2017; split <;> simp

lemma minRun_succ (p : KFIn) (pm k : ℕ) :
    minRun p pm (k+1) = minStep p pm (k+1) (minRun p pm k) := rfl

lemma minStep_zg (p : KFIn) (pm k : ℕ) (s : MinState (2*p.numf))
    (hhalt : s.halted = false) (hbr : pm = ZERO_GAIN ∧ p.n_train < k) :
    minStep p pm k s = ⟨(propagate_states p.A s.x s.P p.oe).1,
      (propagate_states p.A s.x s.P p.oe).2.1, false⟩ := by
  unfold minStep
  rw [hhalt, if_neg Bool.false_ne_true]
  dsimp only
  rw [if_pos hbr]

lemma minStep_halt (p : KFIn) (pm k : ℕ) (s : MinState (2*p.numf))
    (hhalt : s.halted = false) (hbr : ¬(pm = ZERO_GAIN ∧ p.n_train < k))
    (hS : (calc_Kalman_Gain (propagate_states p.A s.x s.P p.oe).2.1 p.rk).2
      = 0) :
    minStep p pm k s = ⟨s.x, s.P, true⟩ := by
  unfold minStep
  rw [hhalt, if_neg Bool.false_ne_true]
  dsimp only
  rw [if_neg hbr, if_pos hS]

lemma minStep_correct (p : KFIn) (pm k : ℕ) (s : MinState (2*p.numf))
    (hhalt : s.halted = false) (hbr : ¬(pm = ZERO_GAIN ∧ p.n_train < k))
    (hS : (calc_Kalman_Gain (propagate_states p.A s.x s.P p.oe).2.1 p.rk).2
      ≠ 0) :
    minStep p pm k s = ⟨fun i => (propagate_states p.A s.x s.P p.oe).1 i
        + (calc_Kalman_Gain (propagate_states p.A s.x s.P p.oe).2.1 p.rk).1 i
          * (p.z k - Matrix.dotProduct (hvec p.numf)
              (propagate_states p.A s.x s.P p.oe).1),
      (propagate_states p.A s.x s.P p.oe).2.1
        - (calc_Kalman_Gain (propagate_states p.A s.x s.P p.oe).2.1 p.rk).2
          • Matrix.vecMulVec
            (calc_Kalman_Gain (propagate_states p.A s.x s.P p.oe).2.1 p.rk).1
            (calc_Kalman_Gain (propagate_states p.A s.x s.P p.oe).2.1 p.rk).1,
      false⟩ := by
  unfold minStep
  rw [hhalt, if_neg Bool.false_ne_true]
  dsimp only
  rw [if_neg hbr, if_neg hS]

lemma detRun_succ (p : KFIn) (skip k : ℕ) :
    detRun p skip (k+1) = detStep p skip (k+1) (detRun p skip k) := rfl

lemma detStep_eval (p : KFIn) (skip k : ℕ) (s : DetState (2*p.numf))
    (h : k % skip = 0) :
    detStep p skip k s = ⟨fun i => (propagate_states p.A s.x s.P p.oe).1 i
        + (calc_Kalman_Gain (propagate_states p.A s.x s.P p.oe).2.1 p.rk).1 i
          * calc_residuals (propagate_states p.A s.x s.P p.oe).1 (p.z k),
      (propagate_states p.A s.x s.P p.oe).2.1
        - (calc_Kalman_Gain (propagate_states p.A s.x s.P p.oe).2.1 p.rk).2
          • Matrix.vecMulVec
            (calc_Kalman_Gain (propagate_states p.A s.x s.P p.oe).2.1 p.rk).1
            (calc_Kalman_Gain (propagate_states p.A s.x s.P p.oe).2.1 p.rk).1,
      (propagate_states p.A s.x s.P p.oe).1,
      (propagate_states p.A s.x s.P p.oe).2.1,
      (calc_Kalman_Gain (propagate_states p.A s.x s.P p.oe).2.1 p.rk).1,
      (calc_Kalman_Gain (propagate_states p.A s.x s.P p.oe).2.1 p.rk).2⟩ := by
  unfold detStep
  dsimp only
  rw [if_neg (fun hc => hc h)]

lemma minRun_frozen (p : KFIn) (pm k0 : ℕ)
    (h : (minRun p pm k0).halted = true) :
    ∀ k, k0 ≤ k → minRun p pm k = minRun p pm k0 := by
  intro k hk
  induction k, hk using Nat.le_induction with
  | base => rfl
  | succ k hk ih =>
    rw [minRun_succ, ih]
    unfold minStep
    rw [if_pos h]

lemma minRun_mode_indep (p : KFIn) (pm pm' : ℕ) :
    ∀ k, k ≤ p.n_train → minRun p pm k = minRun p pm' k := by
  intro k
  induction k with
  | zero => intro _; rfl
  | succ k ih =>
    intro hk
    rw [minRun_succ, minRun_succ, ih (by omega)]
    unfold minStep
    have hnot : ¬ p.n_train < k+1 := by omega
    simp [hnot]

lemma storedX_pos (p : KFIn) (pm k : ℕ) (hk : 1 ≤ k)
    (hh : (minRun p pm k).halted = false) :
    storedX p pm k = (minRun p pm k).x := by
  unfold storedX
  rw [if_neg]
  simp [hh]
  omega

lemma storedX_halted (p : KFIn) (pm k : ℕ)
    (hh : (minRun p pm k).halted = true) : storedX p pm k = 0 :=
  if_pos (Or.inr hh)

lemma storedX_zero (p : KFIn) (pm : ℕ) : storedX p pm 0 = 0 :=
  if_pos (Or.inl rfl)

lemma calc_Gamma_oe_zero {numf : ℕ} (x : Fin (2*numf) → ℝ) :
    calc_Gamma x 0 = fun _ => 0 := by
  funext i; simp [calc_Gamma]

lemma vecMulVec_zero_zero {n : ℕ} :
    Matrix.vecMulVec (fun _ : Fin n => (0:ℝ)) (fun _ : Fin n => (0:ℝ))
      = 0 := by
  ext i j; simp [Matrix.vecMulVec_apply]

lemma propagate_oe_zero {numf : ℕ}
    (a : Matrix (Fin (2*numf)) (Fin (2*numf)) ℝ) (x : Fin (2*numf) → ℝ)
    (P : Matrix (Fin (2*numf)) (Fin (2*numf)) ℝ) :
    propagate_states a x P 0 = (a.mulVec x, a * P * a.transpose, 0) := by
  unfold propagate_states
  dsimp only
  rw [calc_Gamma_oe_zero]
  have h1 : a.mulVec (fun _ => (0:ℝ)) = fun _ => 0 := by
    have h0 : (fun _ : Fin (2*numf) => (0:ℝ)) = 0 := rfl
    rw [h0, Matrix.mulVec_zero]
  rw [h1, vecMulVec_zero_zero, add_zero]

lemma gdm_one (Dt cw fv : ℝ) :
    get_dynamic_model 1 Dt ![fv] cw =
      Matrix.of ![![Real.cos (Dt*fv*2*Real.pi), cw * Real.sin (Dt*fv*2*Real.pi)],
        ![-(cw * Real.sin (Dt*fv*2*Real.pi)), Real.cos (Dt*fv*2*Real.pi)]] := by
  ext i j
  rw [get_dynamic_model_apply]
  fin_cases i <;> fin_cases j <;>
    simp [blockEntry, Matrix.cons_val_fin_one, Matrix.cons_val_zero,
      Matrix.cons_val_one, Matrix.head_cons]

/-- Concrete scenario used to exercise the filters: one basis frequency
`f = 1`, sampling interval `1/4` (quarter-turn rotation per step),
`n_train = 1`, `n_testbefore = 1`, `n_predict = 2`, `x0 = p0 = 1`,
`oe = 0`, `rk = 1`, phase correction `pi`, and a measurement signal that is
`1` at step `1` and `0` elsewhere. -/
def cp : KFIn :=
  ⟨1, 1, 2, 1/4, 1, 1, 0, 1, Real.pi, 1, ![1],
   fun k => if k = 1 then 1 else 0⟩

lemma cpA : cp.A = Matrix.of ![![0,-1],![1,0]] := by
  have hq : (1:ℝ)/4*1*2*Real.pi = Real.pi/2 := by ring
  have h1 : Real.cos ((1:ℝ)/4*1*2*Real.pi) = 0 := by
    rw [hq]; exact Real.cos_pi_div_two
  have h2 : Real.sin ((1:ℝ)/4*1*2*Real.pi) = 1 := by
    rw [hq]; exact Real.sin_pi_div_two
  show get_dynamic_model 1 (1/4) ![1] (-1) = _
  rw [gdm_one, h1, h2]
  ext i j
  fin_cases i <;> fin_cases j <;>
    simp [Matrix.of_apply, Matrix.cons_val_zero, Matrix.cons_val_one,
      Matrix.head_cons] <;> (try norm_num)

lemma cpAAT : cp.A * cp.A.transpose = 1 := by
  rw [cpA]
  ext i j
  fin_cases i <;> fin_cases j <;>
    simp [Matrix.mul_apply, Fin.sum_univ_two, Matrix.transpose_apply,
      Matrix.of_apply, Matrix.cons_val_zero, Matrix.cons_val_one,
      Matrix.head_cons, Matrix.one_apply] <;> norm_num

lemma diagonal_one_fun {n : ℕ} :
    (Matrix.diagonal fun _ : Fin n => (1:ℝ)) = 1 := by
  ext i j
  by_cases h : i = j <;> simp [Matrix.diagonal_apply, h, Matrix.one_apply]

lemma cp_sum2 (g : Fin (2*cp.numf) → ℝ) :
    ∑ x : Fin (2*cp.numf), g x = g ⟨0, by decide⟩ + g ⟨1, by decide⟩ :=
  Fin.sum_univ_two g

lemma cp_sumf (g : Fin cp.numf → ℝ) :
    ∑ x : Fin cp.numf, g x = g ⟨0, by decide⟩ :=
  Fin.sum_univ_one g

lemma cp_prop1 : propagate_states cp.A (fun _ => (1:ℝ))
    (Matrix.diagonal fun _ : Fin (2*cp.numf) => (1:ℝ)) cp.oe
    = (![(-1:ℝ), 1], 1, 0) := by
  rw [show cp.oe = (0:ℝ) from rfl, propagate_oe_zero]
  rw [diagonal_one_fun, Matrix.mul_one, cpAAT]
  have hx : cp.A.mulVec (fun _ => (1:ℝ)) = ![(-1:ℝ), 1] := by
    rw [cpA]
    funext i
    fin_cases i <;>
      simp [Matrix.mulVec, Matrix.dotProduct, cp_sum2,
        Matrix.of_apply, Matrix.cons_val_zero, Matrix.cons_val_one,
        Matrix.head_cons] <;> (try norm_num)
  rw [hx]

lemma cp_KG_S :
    (calc_Kalman_Gain (1 : Matrix (Fin (2*cp.numf)) (Fin (2*cp.numf)) ℝ)
      cp.rk).2 = 2 := by
  unfold calc_Kalman_Gain
  dsimp only
  rw [Matrix.one_mulVec]
  show Matrix.dotProduct (hvec 1) (hvec 1) + cp.rk = 2
  rw [show cp.rk = (1:ℝ) from rfl]
  simp [Matrix.dotProduct, hvec, cp_sum2]
  norm_num

lemma cp_KG_W :
    (calc_Kalman_Gain (1 : Matrix (Fin (2*cp.numf)) (Fin (2*cp.numf)) ℝ)
      cp.rk).1 = ![1/2, 0] := by
  unfold calc_Kalman_Gain
  dsimp only
  rw [Matrix.one_mulVec]
  funext i
  fin_cases i <;>
    simp [Matrix.dotProduct, hvec, cp_sum2,
      show cp.rk = (1:ℝ) from rfl] <;> (try norm_num)

lemma cp_propInit : propagate_states cp.A (minInit cp).x (minInit cp).P cp.oe
    = (![(-1:ℝ), 1], 1, 0) := cp_prop1

lemma cp_hdot : Matrix.dotProduct (hvec cp.numf) ![(-1:ℝ), 1] = -1 := by
  unfold Matrix.dotProduct
  rw [cp_sum2]
  norm_num [hvec, Matrix.cons_val_zero, Matrix.cons_val_one, Matrix.head_cons]

lemma cp_run1 (pm : ℕ) : minRun cp pm 1 =
    ⟨![0, 1],
     (1 : Matrix (Fin (2*cp.numf)) (Fin (2*cp.numf)) ℝ)
       - (2:ℝ) • Matrix.vecMulVec ![1/2, 0] ![1/2, 0],
     false⟩ := by
  have hbr : ¬(pm = ZERO_GAIN ∧ cp.n_train < 1) :=
    fun hc => absurd hc.2 (by decide)
  have hS : (calc_Kalman_Gain
      (propagate_states cp.A (minInit cp).x (minInit cp).P cp.oe).2.1
      cp.rk).2 ≠ 0 := by
    rw [cp_propInit]
    dsimp only
    rw [cp_KG_S]
    norm_num
  rw [minRun_succ, show minRun cp pm 0 = minInit cp from rfl,
    minStep_correct cp pm 1 (minInit cp) rfl hbr hS]
  rw [cp_propInit]
  dsimp only
  rw [cp_KG_S, cp_KG_W]
  congr 1
  funext i
  rw [show cp.z 1 = (1:ℝ) from rfl, cp_hdot]
  fin_cases i <;>
    norm_num [Matrix.cons_val_zero, Matrix.cons_val_one, Matrix.head_cons]

lemma cp_run1_x (pm : ℕ) : (minRun cp pm 1).x = ![0, 1] := by
  rw [cp_run1]

lemma cp_run1_halted (pm : ℕ) : (minRun cp pm 1).halted = false := by
  rw [cp_run1]

lemma cp_run2_x : (minRun cp 0 2).x = ![-1, 0] := by
  rw [minRun_succ,
    minStep_zg cp 0 2 (minRun cp 0 1) (cp_run1_halted 0) ⟨rfl, by decide⟩]
  dsimp only
  rw [show cp.oe = (0:ℝ) from rfl, propagate_oe_zero]
  dsimp only
  rw [cp_run1_x, cpA]
  funext i
  fin_cases i <;>
    simp [Matrix.mulVec, Matrix.dotProduct, cp_sum2, Matrix.of_apply,
      Matrix.cons_val_zero, Matrix.cons_val_one, Matrix.head_cons] <;>
    (try norm_num)

lemma cp_run2_halted : (minRun cp 0 2).halted = false := by
  rw [minRun_succ,
    minStep_zg cp 0 2 (minRun cp 0 1) (cp_run1_halted 0) ⟨rfl, by decide⟩]

lemma cp_noHalt : ∀ k, (minRun cp 0 k).halted = false
  | 0 => rfl
  | 1 => cp_run1_halted 0
  | (k+2) => by
      rw [minRun_succ, minStep_zg cp 0 (k+2) (minRun cp 0 (k+1))
        (cp_noHalt (k+1)) ⟨rfl, by show 1 < k+2; omega⟩]

lemma cp_kf_ZG : _kf_2017 cp 0 = [0, 0, -1] := by
  have hnot : ¬ PFcond cp 0 := fun h => absurd h.1 (by decide)
  unfold _kf_2017
  rw [if_neg hnot]
  show List.ofFn (fun i : Fin 3 =>
    calc_pred1 (storedX cp 0 (cp.n_train - cp.n_testbefore + i.val)))
      = [0, 0, -1]
  show [calc_pred1 (storedX cp 0 0), calc_pred1 (storedX cp 0 1),
    calc_pred1 (storedX cp 0 2)] = [(0:ℝ), 0, -1]
  rw [storedX_zero, storedX_pos cp 0 1 (by omega) (cp_run1_halted 0),
    storedX_pos cp 0 2 (by omega) cp_run2_halted, cp_run1_x, cp_run2_x]
  have h0 : @calc_pred1 cp.numf 0 = 0 := by
    unfold calc_pred1; rw [cp_sumf]; rfl
  have h1 : @calc_pred1 cp.numf ![0, 1] = 0 := by
    unfold calc_pred1; rw [cp_sumf]; rfl
  have h2 : @calc_pred1 cp.numf ![-1, 0] = -1 := by
    unfold calc_pred1; rw [cp_sumf]; rfl
  rw [h0, h1, h2]

lemma cp_det_run1_x : (detRun cp 1 1).x = ![0, 1] := by
  rw [detRun_succ, show detRun cp 1 0 = detInit cp from rfl,
    detStep_eval cp 1 1 (detInit cp) (by decide)]
  dsimp only
  rw [show propagate_states cp.A (detInit cp).x (detInit cp).P cp.oe
      = (![(-1:ℝ), 1], (1 : Matrix (Fin (2*cp.numf)) (Fin (2*cp.numf)) ℝ), 0)
    from cp_prop1]
  dsimp only
  rw [cp_KG_W]
  unfold calc_residuals
  rw [show cp.z 1 = (1:ℝ) from rfl, cp_hdot]
  funext i
  fin_cases i <;>
    norm_num [Matrix.cons_val_zero, Matrix.cons_val_one, Matrix.head_cons]

lemma cp_detInstA : detInstantA cp 1 = fun _ => 1 := by
  have hlt : (0:ℕ) < cp.numf := by decide
  funext j
  unfold detInstantA
  rw [if_neg (by decide : ¬ cp.n_train = 0),
    show cp.n_train = 1 from rfl, cp_det_run1_x]
  rw [show j = (⟨0, hlt⟩ : Fin cp.numf) from
    Fin.ext (by show j.val = 0; have h1 : j.val < 1 := j.isLt; omega)]
  unfold instantA1
  rw [show (![(0:ℝ), 1]) (pairRe (⟨0, hlt⟩ : Fin cp.numf)) = 0 from rfl,
    show (![(0:ℝ), 1]) (pairIm (⟨0, hlt⟩ : Fin cp.numf)) = 1 from rfl]
  norm_num

lemma cp_detInstP : detInstantP cp 1 = fun _ => Real.pi/2 := by
  have hlt : (0:ℕ) < cp.numf := by decide
  funext j
  unfold detInstantP
  rw [if_neg (by decide : ¬ cp.n_train = 0),
    show cp.n_train = 1 from rfl, cp_det_run1_x]
  rw [show j = (⟨0, hlt⟩ : Fin cp.numf) from
    Fin.ext (by show j.val = 0; have h1 : j.val < 1 := j.isLt; omega)]
  unfold instantP1
  rw [show (![(0:ℝ), 1]) (pairRe (⟨0, hlt⟩ : Fin cp.numf)) = 0 from rfl,
    show (![(0:ℝ), 1]) (pairIm (⟨0, hlt⟩ : Fin cp.numf)) = 1 from rfl]
  rw [show (⟨0, 1⟩ : ℂ) = Complex.I from rfl]
  exact Complex.arg_I

lemma cp_detPF (tn : ℕ) : detPF cp 1 tn
    = Real.cos ((1:ℝ)/4 * tn * 1 * 2 * Real.pi + Real.pi/2) := by
  unfold detPF
  rw [dif_pos (by decide : 0 < cp.numf)]
  rw [cp_detInstA, cp_detInstP]
  dsimp only
  rw [cp_sumf]
  rw [show cp.DeltaT = (1:ℝ)/4 from rfl,
    show ∀ (h : 0 < cp.numf), cp.f ⟨0, h⟩ = (1:ℝ) from fun _ => rfl]
  norm_num

lemma cp_detPF1 : detPF cp 1 1 = -1 := by
  rw [cp_detPF 1,
    show (1:ℝ)/4 * ((1:ℕ):ℝ) * 1 * 2 * Real.pi + Real.pi/2 = Real.pi by
      push_cast; ring]
  exact Real.cos_pi

lemma cp_detPF2 : detPF cp 1 2 = 0 := by
  rw [cp_detPF 2,
    show (1:ℝ)/4 * ((2:ℕ):ℝ) * 1 * 2 * Real.pi + Real.pi/2
      = Real.pi + Real.pi/2 by push_cast; ring,
    Real.cos_add]
  norm_num [Real.cos_pi, Real.sin_pi, Real.cos_pi_div_two,
    Real.sin_pi_div_two]

lemma cp_det_out : detailed_kf cp 1 = some [1, -1, 0] := by
  unfold detailed_kf
  rw [if_pos ⟨by decide, by decide⟩]
  congr 1
  show (List.ofFn fun i : Fin 1 =>
      calc_pred1 ((detRun cp 1 (cp.n_train - cp.n_testbefore + i.val)).x))
    ++ (List.ofFn fun i : Fin 2 => detPF cp 1 (cp.n_train + i.val))
      = [1, -1, 0]
  show [calc_pred1 ((detRun cp 1 0).x)]
    ++ [detPF cp 1 1, detPF cp 1 2] = [(1:ℝ), -1, 0]
  have hh : calc_pred1 ((detRun cp 1 0).x) = 1 := by
    unfold calc_pred1; rw [cp_sumf]; rfl
  rw [hh, cp_detPF1, cp_detPF2]
  rfl

/-- Halting scenario: one basis frequency `f = 1`, `DeltaT = 1`,
`n_train = 2`, `n_testbefore = 1`, `n_predict = 1`, `x0 = 1`, `p0 = 0`,
`oe = 0`, `rk = 0`: at step `1` the innovation covariance is
`S = h P_apriori hT + rk = 0`, so `1/S` is non-finite and the loop breaks
during training. -/
def cp5 : KFIn := ⟨2, 1, 1, 1, 1, 0, 0, 0, 0, 1, ![1], fun _ => 0⟩

lemma diagonal_zero_fun {n : ℕ} :
    (Matrix.diagonal fun _ : Fin n => (0:ℝ)) = 0 := by
  ext i j
  simp [Matrix.diagonal_apply]

lemma cp5_halt1 : (minRun cp5 0 1).halted = true := by
  have hbr : ¬((0:ℕ) = ZERO_GAIN ∧ cp5.n_train < 1) :=
    fun hc => absurd hc.2 (by decide)
  have hS : (calc_Kalman_Gain
      (propagate_states cp5.A (minInit cp5).x (minInit cp5).P cp5.oe).2.1
      cp5.rk).2 = 0 := by
    have hprop : propagate_states cp5.A (minInit cp5).x (minInit cp5).P cp5.oe
        = (cp5.A.mulVec (minInit cp5).x, 0, 0) := by
      rw [show cp5.oe = (0:ℝ) from rfl, propagate_oe_zero]
      rw [show (minInit cp5).P
          = (Matrix.diagonal fun _ : Fin (2*cp5.numf) => (0:ℝ)) from rfl,
        diagonal_zero_fun, Matrix.mul_zero, Matrix.zero_mul]
    rw [hprop]
    unfold calc_Kalman_Gain
    dsimp only
    rw [Matrix.zero_mulVec, Matrix.dotProduct_zero,
      show cp5.rk = (0:ℝ) from rfl, add_zero]
  rw [minRun_succ, show minRun cp5 0 0 = minInit cp5 from rfl,
    minStep_halt cp5 0 1 (minInit cp5) rfl hbr hS]

/-- Parameter bundle with `n_predict = 0` (`num = n_train`). -/
def cp8 : KFIn := ⟨1, 1, 0, 1, 1, 1, 0, 1, 0, 1, ![1], fun _ => 0⟩

/-- C1: for a run with `n_testbefore <= n_train` that never aborts, the
minimal variant's output always has length `n_testbefore + n_predict`; the
stored trajectory at steps `>= 1` is the filtered posterior; in `ZeroGain`
mode the output is the reconstruction of the stored trajectory from step
`n_train - n_testbefore` onward and the states past `n_train` evolve open
loop under `a`; in `PropForward` mode the output is the last `n_testbefore`
reconstructed stored states followed by the `n_predict` harmonic-sum
forecasts from the state frozen at `n_train`; and the detailed variant
(whose only mode is its `PropForward`-style assembly) returns the analogous
concatenation. -/
theorem C1_output_assembly (p : KFIn) (pm skip : ℕ)
    (hntb : p.n_testbefore ≤ p.n_train)
    (hnh : ∀ k, (minRun p pm k).halted = false) :
    (_kf_2017 p pm).length = p.n_testbefore + p.n_predict ∧
    (∀ k, 1 ≤ k → storedX p pm k = (minRun p pm k).x) ∧
    (pm = ZERO_GAIN →
      _kf_2017 p pm = (List.ofFn fun i : Fin (p.n_testbefore + p.n_predict) =>
        calc_pred1 (storedX p pm (p.n_train - p.n_testbefore + i.val))) ∧
      ∀ k, p.n_train < k →
        (minRun p pm k).x = p.A.mulVec ((minRun p pm (k-1)).x)) ∧
    (pm = PROP_FORWARD → 1 ≤ p.n_train → 1 ≤ p.n_predict →
      _kf_2017 p pm = (List.ofFn fun i : Fin p.n_testbefore =>
          calc_pred1 (storedX p pm (p.n_train - p.n_testbefore + i.val)))
        ++ (List.ofFn fun i : Fin p.n_predict =>
          makePropForward_val p ((minRun p pm p.n_train).x)
            (p.n_train + i.val))) ∧
    (1 ≤ p.n_predict → 1 ≤ p.numf →
      detailed_kf p skip = some ((List.ofFn fun i : Fin p.n_testbefore =>
          calc_pred1 ((detRun p skip (p.n_train - p.n_testbefore + i.val)).x))
        ++ (List.ofFn fun i : Fin p.n_predict =>
          detPF p skip (p.n_train + i.val)))) := by
  refine ⟨_kf_2017_length p pm,
    fun k hk => storedX_pos p pm k hk (hnh k), ?_, ?_, ?_⟩
  · rintro rfl
    constructor
    · unfold _kf_2017
      rw [if_neg (fun hc => absurd hc.1 (by decide))]
    · intro k hkgt
      obtain ⟨k0, rfl⟩ : ∃ k0, k = k0 + 1 := ⟨k - 1, by omega⟩
      rw [minRun_succ, minStep_zg p ZERO_GAIN (k0+1) (minRun p ZERO_GAIN k0)
        (hnh k0) ⟨rfl, by omega⟩]
      show (propagate_states p.A (minRun p ZERO_GAIN k0).x
        (minRun p ZERO_GAIN k0).P p.oe).1
          = p.A.mulVec ((minRun p ZERO_GAIN (k0+1-1)).x)
      rw [show k0+1-1 = k0 from rfl]
      rfl
  · rintro rfl h2 h3
    have hcond : PFcond p PROP_FORWARD :=
      ⟨rfl, h2, by unfold KFIn.num; omega, hnh p.n_train⟩
    unfold _kf_2017
    rw [if_pos hcond]
  · intro h2 h3
    unfold detailed_kf
    rw [if_pos ⟨by unfold KFIn.num; omega, h3⟩]

/-- Witness for C1 at the concrete rotation scenario in `ZeroGain` mode. -/
theorem C1_witness :
    (cp.n_testbefore ≤ cp.n_train ∧ ∀ k, (minRun cp 0 k).halted = false) ∧
    (_kf_2017 cp 0).length = cp.n_testbefore + cp.n_predict :=
  ⟨⟨by decide, cp_noHalt⟩,
   (C1_output_assembly cp 0 1 (by decide) cp_noHalt).1⟩

/-- Spec-side claimed forecast of the detailed variant for claim C3
(spec section 4.5, read literally): harmonic sum
`Sum_f A_f cos(2 pi f Dt t + phi_f + correction_f)` over the frozen
amplitudes/phases, with the correction applied exactly to the nonzero
frequencies. -/
def specPF_det (p : KFIn) (skip : ℕ) (tn : ℕ) : ℝ :=
  ∑ j : Fin p.numf,
    if p.f j = 0 then
      detInstantA p skip j *
        Real.cos (2*Real.pi*(p.f j)*p.DeltaT*tn + detInstantP p skip j)
    else
      detInstantA p skip j *
        Real.cos (2*Real.pi*(p.f j)*p.DeltaT*tn + detInstantP p skip j
          + p.phase_correction)

lemma cp_specPF1 : specPF_det cp 1 1 = 1 := by
  unfold specPF_det
  rw [cp_sumf, cp_detInstA, cp_detInstP]
  rw [show ∀ (h : 0 < cp.numf), cp.f ⟨0, h⟩ = (1:ℝ) from fun _ => rfl]
  rw [if_neg (by norm_num)]
  dsimp only
  rw [show cp.DeltaT = (1:ℝ)/4 from rfl,
    show cp.phase_correction = Real.pi from rfl,
    show 2*Real.pi*1*((1:ℝ)/4)*((1:ℕ):ℝ) + Real.pi/2 + Real.pi
      = 2*Real.pi by push_cast; ring,
    Real.cos_two_pi]
  norm_num

/-- C3 (counterexample): in the detailed variant at the rotation scenario
(`numf = 1`, `f = 1`, phase correction `pi`), the first out-of-sample
forecast value is `-1` (the code applies no correction to basis index `0`),
while the claim's formula — correction applied exactly to nonzero
frequencies — gives `+1`. -/
theorem C3_correction_counterexample :
    detailed_kf cp 1 = some [1, -1, 0] ∧
    detPF cp 1 1 = -1 ∧
    specPF_det cp 1 1 = 1 :=
  ⟨cp_det_out, cp_detPF1, cp_specPF1⟩

/-- C3 (amended): in the minimal variant, the posterior state is frozen at
exactly `k = n_train`, amplitudes `sqrt(re^2+im^2)` and phases
`atan2(im, re)` are extracted from it, and every forecast value is the
harmonic sum with the fixed correction added exactly at nonzero
frequencies.  In the detailed variant the same extraction happens at
`n_train`, but the correction is added exactly at the basis indices
`>= 1` — the first index is exempt regardless of its frequency value. -/
theorem C3_amended_propforward (p : KFIn) (skip : ℕ)
    (hPF : PFcond p PROP_FORWARD) (hg : p.n_train < p.num)
    (hf : 1 ≤ p.numf) (hnt : 1 ≤ p.n_train) :
    ((_kf_2017 p PROP_FORWARD).drop p.n_testbefore
      = List.ofFn (fun i : Fin p.n_predict =>
          ∑ j : Fin p.numf,
            if p.f j = 0 then
              Real.sqrt (((minRun p PROP_FORWARD p.n_train).x (pairRe j))^2
                + ((minRun p PROP_FORWARD p.n_train).x (pairIm j))^2)
              * Real.cos (p.DeltaT * ((p.n_train + i.val : ℕ) : ℝ)
                  * p.f j * 2 * Real.pi
                + Complex.arg ⟨(minRun p PROP_FORWARD p.n_train).x (pairRe j),
                    (minRun p PROP_FORWARD p.n_train).x (pairIm j)⟩)
            else
              Real.sqrt (((minRun p PROP_FORWARD p.n_train).x (pairRe j))^2
                + ((minRun p PROP_FORWARD p.n_train).x (pairIm j))^2)
              * Real.cos (p.DeltaT * ((p.n_train + i.val : ℕ) : ℝ)
                  * p.f j * 2 * Real.pi
                + Complex.arg ⟨(minRun p PROP_FORWARD p.n_train).x (pairRe j),
                    (minRun p PROP_FORWARD p.n_train).x (pairIm j)⟩
                + p.phase_correction))) ∧
    (∀ l, detailed_kf p skip = some l →
      l.drop p.n_testbefore = List.ofFn (fun i : Fin p.n_predict =>
        detPF p skip (p.n_train + i.val))) ∧
    (∀ j : Fin p.numf,
      detInstantA p skip j
        = Real.sqrt (((detRun p skip p.n_train).x (pairRe j))^2
            + ((detRun p skip p.n_train).x (pairIm j))^2) ∧
      detInstantP p skip j
        = Complex.arg ⟨(detRun p skip p.n_train).x (pairRe j),
            (detRun p skip p.n_train).x (pairIm j)⟩) ∧
    (∀ tn, detPF p skip tn
      = detInstantA p skip ⟨0, hf⟩ * Real.cos (p.DeltaT * tn * p.f ⟨0, hf⟩
          * 2 * Real.pi + detInstantP p skip ⟨0, hf⟩)
        + ∑ j : Fin p.numf,
            if 1 ≤ j.val then
              detInstantA p skip j * Real.cos (p.DeltaT * tn * p.f j
                * 2 * Real.pi + detInstantP p skip j + p.phase_correction)
            else 0) := by
  refine ⟨?_, ?_, ?_, ?_⟩
  · unfold _kf_2017
    rw [if_pos hPF]
    rw [List.drop_left' (List.length_ofFn _)]
    rfl
  · intro l hl
    unfold detailed_kf at hl
    rw [if_pos ⟨hg, hf⟩] at hl
    rw [← Option.some.inj hl]
    rw [List.drop_left' (List.length_ofFn _)]
  · intro j
    constructor
    · unfold detInstantA
      rw [if_neg (by omega)]
      rfl
    · unfold detInstantP
      rw [if_neg (by omega)]
      rfl
  · intro tn
    unfold detPF
    rw [dif_pos (show 0 < p.numf from hf)]

/-- Witness for C3 (amended) at the rotation scenario in `PropForward`
mode. -/
theorem C3_amended_witness :
    (PFcond cp PROP_FORWARD ∧ cp.n_train < cp.num ∧ 1 ≤ cp.numf
      ∧ 1 ≤ cp.n_train) ∧
    (∀ l, detailed_kf cp 1 = some l →
      l.drop cp.n_testbefore = List.ofFn (fun i : Fin cp.n_predict =>
        detPF cp 1 (cp.n_train + i.val))) := by
  have hPF : PFcond cp PROP_FORWARD :=
    ⟨rfl, by decide, by decide, cp_run1_halted 1⟩
  exact ⟨⟨hPF, by decide, by decide, by decide⟩,
    (C3_amended_propforward cp 1 hPF (by decide) (by decide) (by decide)).2.1⟩

/-- C5 (counterexample): at the degenerate scenario `cp5` the loop aborts
at step `1 < n_train = 2` (non-finite `1/S`), yet the returned prediction
sequence still has the full length `n_testbefore + n_predict = 2` — it is
partially filled (zeros) but not truncated. -/
theorem C5_truncation_counterexample :
    (minRun cp5 0 0).halted = false ∧ (minRun cp5 0 1).halted = true ∧
    1 < cp5.n_train ∧
    (_kf_2017 cp5 0).length = cp5.n_testbefore + cp5.n_predict ∧
    cp5.n_testbefore + cp5.n_predict = 2 :=
  ⟨rfl, cp5_halt1, by decide, _kf_2017_length cp5 0, by decide⟩

/-- C5 (amended): when the step loop aborts during training (the step at
which `1/S` became non-finite), the run is frozen from that step on (no
further predict/correct iterations, no retry), nothing is stored at or
after the aborting step, and the minimal variant still returns a
full-length (`n_testbefore + n_predict`) partially-filled prediction
sequence assembled from the stored trajectory. -/
theorem C5_halt_behavior (p : KFIn) (pm k0 : ℕ)
    (hprev : (minRun p pm (k0-1)).halted = false)
    (hnow : (minRun p pm k0).halted = true)
    (hk0 : k0 ≤ p.n_train) :
    (∀ k, k0 ≤ k → minRun p pm k = minRun p pm k0) ∧
    (∀ k, k0 ≤ k → storedX p pm k = 0) ∧
    (_kf_2017 p pm).length = p.n_testbefore + p.n_predict ∧
    _kf_2017 p pm = List.ofFn (fun i : Fin (p.n_testbefore + p.n_predict) =>
      calc_pred1 (storedX p pm (p.n_train - p.n_testbefore + i.val))) := by
  have hfroz := minRun_frozen p pm k0 hnow
  refine ⟨hfroz, ?_, _kf_2017_length p pm, ?_⟩
  · intro k hk
    apply storedX_halted
    rw [hfroz k hk]
    exact hnow
  · unfold _kf_2017
    rw [if_neg ?_]
    intro hc
    have hT : (minRun p pm p.n_train).halted = true := by
      rw [hfroz p.n_train hk0]
      exact hnow
    rw [hc.2.2.2] at hT
    exact Bool.false_ne_true hT

/-- Witness for C5 (amended) at the degenerate scenario `cp5`. -/
theorem C5_witness :
    ((minRun cp5 0 (1-1)).halted = false ∧ (minRun cp5 0 1).halted = true
      ∧ 1 ≤ cp5.n_train) ∧
    storedX cp5 0 1 = 0 :=
  ⟨⟨rfl, cp5_halt1, by decide⟩,
   (C5_halt_behavior cp5 0 1 rfl cp5_halt1 (by decide)).2.1 1 (le_refl 1)⟩

/-- C8 (counterexample): the detailed variant with `n_predict = 0` raises
an `IndexError` (its training loop writes `x_hat[:, :, n_train]` into
arrays of length `num = n_train`) instead of completing normally. -/
theorem C8_detailed_counterexample : detailed_kf cp8 1 = none := by
  unfold detailed_kf
  rw [if_neg]
  intro hc
  exact absurd hc.1 (by decide)

/-- C8 (amended): with `n_predict = 0` the minimal variant completes
normally and its output is exactly the in-sample segment — the
`n_testbefore` reconstructed stored states at training steps strictly
before `n_train` — for both forecasting modes; the detailed variant,
however, raises (out-of-bounds write at step `n_train`) instead of
returning. -/
theorem C8_n_predict_zero (p : KFIn) (pm skip : ℕ)
    (h0 : p.n_predict = 0) (h1 : p.n_testbefore ≤ p.n_train) :
    (_kf_2017 p pm).length = p.n_testbefore ∧
    _kf_2017 p pm = List.ofFn (fun i : Fin (p.n_testbefore + p.n_predict) =>
      calc_pred1 (storedX p pm (p.n_train - p.n_testbefore + i.val))) ∧
    (∀ i : Fin (p.n_testbefore + p.n_predict),
      p.n_train - p.n_testbefore + i.val < p.n_train) ∧
    detailed_kf p skip = none := by
  have hnn : ¬ PFcond p pm := by
    intro hc
    have h := hc.2.2.1
    unfold KFIn.num at h
    omega
  refine ⟨?_, ?_, ?_, ?_⟩
  · rw [_kf_2017_length, h0]
    omega
  · unfold _kf_2017
    rw [if_neg hnn]
  · intro i
    have hi := i.isLt
    omega
  · unfold detailed_kf
    rw [if_neg]
    intro hc
    have h := hc.1
    unfold KFIn.num at h
    omega

/-- Witness for C8 (amended) at `cp8` (`n_predict = 0`). -/
theorem C8_witness :
    (cp8.n_predict = 0 ∧ cp8.n_testbefore ≤ cp8.n_train) ∧
    (_kf_2017 cp8 0).length = cp8.n_testbefore :=
  ⟨⟨rfl, by decide⟩, (C8_n_predict_zero cp8 0 1 rfl (by decide)).1⟩

/-- C10 (counterexample): at the rotation scenario the detailed variant
returns the `PropForward` harmonic-sum forecast `[1, -1, 0]`, while the
`ZeroGain` mode of the same inputs yields `[0, 0, -1]`; no mode selection
exists in the detailed variant's interface that reproduces `ZeroGain`. -/
theorem C10_no_selector_counterexample :
    detailed_kf cp 1 = some [1, -1, 0] ∧
    _kf_2017 cp ZERO_GAIN = [0, 0, -1] ∧
    detailed_kf cp 1 ≠ some (_kf_2017 cp ZERO_GAIN) := by
  have hne : ([1, -1, 0] : List ℝ) ≠ [0, 0, -1] := by
    intro hl
    injection hl with ha _
    norm_num at ha
  refine ⟨cp_det_out, cp_kf_ZG, ?_⟩
  show detailed_kf cp 1 ≠ some (_kf_2017 cp 0)
  rw [cp_det_out, cp_kf_ZG]
  intro h
  exact hne (Option.some.inj h)

/-- C10 (amended): in the minimal variant the forecasting mode is
selectable from exactly `{ZeroGain, PropForward}` via the
`PredictionMethod` dictionary, and an unrecognized mode string makes
`kf_2017` raise `KeyError` before the filter loop runs; the detailed
variant has no mode parameter and always produces the `PropForward`-style
assembly. -/
theorem C10_amended_mode_selection (p : KFIn) (s : String)
    (h1 : s ≠ "ZeroGain") (h2 : s ≠ "PropForward") :
    PredictionMethod "ZeroGain" = some ZERO_GAIN ∧
    PredictionMethod "PropForward" = some PROP_FORWARD ∧
    kf_2017 p "ZeroGain" = some (_kf_2017 p ZERO_GAIN) ∧
    kf_2017 p "PropForward" = some (_kf_2017 p PROP_FORWARD) ∧
    kf_2017 p s = none ∧
    (∀ q : KFIn, ∀ sk, q.n_train < q.num → 1 ≤ q.numf →
      detailed_kf q sk = some
        ((List.ofFn fun i : Fin q.n_testbefore =>
          calc_pred1 ((detRun q sk (q.n_train - q.n_testbefore + i.val)).x))
        ++ (List.ofFn fun i : Fin q.n_predict =>
          detPF q sk (q.n_train + i.val)))) := by
  refine ⟨rfl, rfl, rfl, rfl, ?_, ?_⟩
  · unfold kf_2017 PredictionMethod
    rw [if_neg h1, if_neg h2]
    rfl
  · intro q sk hg hf
    unfold detailed_kf
    rw [if_pos ⟨hg, hf⟩]

/-- Witness for C10 (amended) at the unrecognized mode string "Banana". -/
theorem C10_witness :
    (("Banana" : String) ≠ "ZeroGain" ∧ ("Banana" : String) ≠ "PropForward")
      ∧ kf_2017 cp "Banana" = none :=
  ⟨⟨by decide, by decide⟩,
   (C10_amended_mode_selection cp "Banana" (by decide)
     (by decide)).2.2.2.2.1⟩

end
